import Mathlib

/-!
Verification of the document-translation core in `main.py`
(`DocumentTranslator.smart_chunk_text`, `DocumentTranslator.translate_text`,
`DocumentTranslator.get_translator_instance`).

Python strings are embedded as `List Char`.  The translation backend is
abstracted as an oracle `Backend : BackendKind → Nat → Str → Option Str`
mapping (implementation, call index, input text) to `some translation`
or `none` (the backend call raised an exception).  The pipeline is
instrumented with a call log so that claims about the number, order and
target of backend calls can be stated.
-/

namespace DocumentTranslator

/-- Python `str` as a list of characters. -/
abbrev Str := List Char

/-- Turn a Lean string literal into the character-list embedding. -/
def strLit (s : String) : Str := s.data

/-- The paragraph delimiter `"\n\n"`. -/
def nn : Str := ['\n', '\n']

/-- Python `text.split("\n\n")`: split on non-overlapping occurrences of
the two-character delimiter, scanning left to right.
`"".split("\n\n") = [""]`. -/
def splitOnNN : Str → List Str
  | [] => [[]]
  | [c] => [[c]]
  | c :: d :: rest =>
    if c = '\n' ∧ d = '\n' then
      [] :: splitOnNN rest
    else
      match splitOnNN (d :: rest) with
      | [] => [[c]]
      | p :: ps => (c :: p) :: ps

/-- Python `"\n\n".join(parts)`. -/
def joinNN : List Str → Str
  | [] => []
  | [p] => p
  | p :: ps => p ++ nn ++ joinNN ps

/-- Python `"".join(parts)`. -/
def flat : List Str → Str
  | [] => []
  | p :: ps => p ++ flat ps

/-- The sentence-terminator set of the regex `(?<=[.!?。！？])`. -/
def isPunct (c : Char) : Bool :=
  c = '.' || c = '!' || c = '?' || c = '。' || c = '！' || c = '？'

/-- The characters matched by the regex class `\s` (ASCII part; the
texts handled by this development contain no further Unicode
whitespace code points). -/
def isSpacePy (c : Char) : Bool :=
  c = ' ' || c = '\t' || c = '\n' || c = '\r' || c = '\x0b' || c = '\x0c'

/-- Prepend a character to the first piece of a split result. -/
def consHead (c : Char) : List Str → List Str
  | [] => [[c]]
  | p :: ps => (c :: p) :: ps

/-- Scanner mode for `re.split(r"(?<=[.!?。！？])\s*", ·)`:
`norm` = previous character (if any) is not a terminator, no match can
start here; `punct` = previous character is a terminator, a (possibly
empty) match starts here; `skip` = inside the whitespace run of a
non-empty match, characters are consumed without being emitted. -/
inductive RMode | norm | punct | skip
deriving DecidableEq

/-- Mode after consuming character `c` into the current piece. -/
def modeOf (c : Char) : RMode := if isPunct c then RMode.punct else RMode.norm

/-- Operational model of Python `re.split(r"(?<=[.!?。！？])\s*", s)`:
split points occur after each terminator character, and the maximal
whitespace run following the terminator is consumed (dropped).  An
empty match at the end of the string contributes a final empty piece,
matching CPython semantics (e.g. `"ab."` splits to `["ab.", ""]`,
`"ab. cd"` to `["ab.", "cd"]`). -/
def reSplitAux : RMode → Str → List Str
  | RMode.norm, [] => [[]]
  | RMode.skip, [] => [[]]
  | RMode.punct, [] => [[], []]
  | RMode.norm, c :: cs => consHead c (reSplitAux (modeOf c) cs)
  | RMode.skip, c :: cs =>
    if isSpacePy c then reSplitAux RMode.skip cs
    else consHead c (reSplitAux (modeOf c) cs)
  | RMode.punct, c :: cs =>
    if isSpacePy c then [] :: reSplitAux RMode.skip cs
    else [] :: consHead c (reSplitAux (modeOf c) cs)

/-- `re.split(r"(?<=[.!?。！？])\s*", s)` (main.py line 124). -/
def reSplit (s : Str) : List Str := reSplitAux RMode.norm s

/-- Helper for `chunksOf`: repeatedly peel a slice of `m` characters.
The `fuel` argument only makes the recursion structural; with
`s.length ≤ fuel` and `0 < m` it is never exhausted (see
`chunksOf_peel`). -/
def chunksOfGo (m : Nat) : Nat → Str → List Str
  | _, [] => []
  | 0, s => [s]
  | fuel + 1, s => s.take m :: chunksOfGo m fuel (s.drop m)

/-- Python `[sentence[i : i + m] for i in range(0, len(sentence), m)]`
(main.py lines 127-128): consecutive slices of `m` characters, the
last possibly shorter.  For `m = 0` Python `range` raises
`ValueError`; the claims only quantify over `max_size > 0`, so the
value returned in that unreachable case is irrelevant. -/
def chunksOf (m : Nat) (s : Str) : List Str :=
  if m = 0 then [s] else chunksOfGo m s.length s

/-- Provenance of a chunk: flushed paragraph accumulator (`para`,
main.py lines 120, 144, 152), flushed sentence accumulator (`sent`,
lines 131, 139) or hard character cut (`cut`, line 128). -/
inductive Tag | para | sent | cut
deriving DecidableEq

/-- A chunk together with the branch of `smart_chunk_text` that
emitted it. -/
abbrev TChunk := Tag × Str

/-- The inner sentence loop of `smart_chunk_text` (main.py lines
125-136), returning the updated `(chunks, current_chunk,
current_size)`.  Note that the hard-cut branch (line 126) leaves the
sentence accumulator untouched. -/
def sentLoop (m : Nat) : List Str → List TChunk → List Str → Nat →
    List TChunk × List Str × Nat
  | [], chunks, cur, sz => (chunks, cur, sz)
  | s :: rest, chunks, cur, sz =>
    if m < s.length then
      sentLoop m rest (chunks ++ (chunksOf m s).map (fun c => (Tag.cut, c))) cur sz
    else if m < sz + s.length then
      sentLoop m rest (if cur = [] then chunks else chunks ++ [(Tag.sent, flat cur)])
        [s] s.length
    else
      sentLoop m rest chunks (cur ++ [s]) (sz + s.length)

/-- The paragraph loop of `smart_chunk_text` (main.py lines 115-152).
State: emitted chunks, `current_chunk`, `current_size`.  In the
oversized-paragraph branch the accumulator is flushed (lines 119-122),
the sentence loop runs, and any remaining sentence accumulator is
flushed (lines 138-141); whenever `current_chunk` is empty,
`current_size` is `0`, so the loop always continues from `([], 0)`. -/
def paraLoop (m : Nat) : List Str → List TChunk → List Str → Nat → List TChunk
  | [], chunks, cur, _ =>
    if cur = [] then chunks else chunks ++ [(Tag.para, joinNN cur)]
  | p :: rest, chunks, cur, sz =>
    if m < p.length then
      let st1 := if cur = [] then chunks else chunks ++ [(Tag.para, joinNN cur)]
      match sentLoop m (reSplit p) st1 [] 0 with
      | (st2, cur2, _) =>
        paraLoop m rest
          (if cur2 = [] then st2 else st2 ++ [(Tag.sent, flat cur2)]) [] 0
    else if m < sz + p.length then
      paraLoop m rest (chunks ++ [(Tag.para, joinNN cur)]) [p] p.length
    else
      paraLoop m rest chunks (cur ++ [p]) (sz + p.length + 2)

/-- `DocumentTranslator.smart_chunk_text` (main.py lines 108-154), with
each chunk tagged by the branch that produced it.  `m` is
`self.max_chunk_size`. -/
def smartChunkTagged (m : Nat) (t : Str) : List TChunk :=
  paraLoop m (splitOnNN t) [] [] 0

/-- `DocumentTranslator.smart_chunk_text` (main.py lines 108-154): the
returned list of chunks. -/
def smartChunkText (m : Nat) (t : Str) : List Str :=
  (smartChunkTagged m t).map Prod.snd

/-- The three backend implementations of the `deep_translator`
library used by `main.py`. -/
inductive BackendKind | google | microsoft | mymemory
deriving DecidableEq

/-- `DocumentTranslator.get_translator_instance` (main.py lines
156-167): map the selection key to the backend implementation that is
constructed; unknown keys fall back to Google. -/
def getTranslatorInstance (translatorType : String) : BackendKind :=
  if translatorType = "google" then BackendKind.google
  else if translatorType = "microsoft" then BackendKind.microsoft
  else if translatorType = "mymemory" then BackendKind.mymemory
  else BackendKind.google

/-- The sentinel substituted after retry exhaustion (main.py line 215). -/
def sentinel : Str := strLit "[Translation unavailable for this section]"

/-- Instrumentation state of a `translate_text` run: the number of
backend calls made so far and the log of calls (implementation used
and text submitted), in order. -/
structure TState where
  counter : Nat
  log : List (BackendKind × Str)
deriving DecidableEq

/-- State at the start of a `translate_text` run. -/
def initTState : TState := ⟨0, []⟩

/-- A backend oracle: `B k n s` is the outcome of the `n`-th backend
call of the run when issued against implementation `k` with input `s`;
`none` means the call raised an exception.  The dependence of the real
`translator.translate` on the source/target language codes is absorbed
into the oracle, which every claim holds fixed. -/
abbrev Backend := BackendKind → Nat → Str → Option Str

/-- One `translator.translate(chunk)` call, recorded in the log. -/
def callBackend (B : Backend) (k : BackendKind) (st : TState) (s : Str) :
    Option Str × TState :=
  (B k st.counter s, ⟨st.counter + 1, st.log ++ [(k, s)]⟩)

/-- The per-chunk retry loop of `translate_text` (main.py lines
194-216): `while retry_count < max_retries` with `max_retries = 3`,
unrolled.  Each failing attempt is caught; after the third failure the
sentinel is substituted.  The constructed translator is
`GoogleTranslator` regardless of `translator_type` (line 187). -/
def tryChunk (B : Backend) (st : TState) (chunk : Str) : Str × TState :=
  match callBackend B BackendKind.google st chunk with
  | (some r, st1) => (r, st1)
  | (none, st1) =>
    match callBackend B BackendKind.google st1 chunk with
    | (some r, st2) => (r, st2)
    | (none, st2) =>
      match callBackend B BackendKind.google st2 chunk with
      | (some r, st3) => (r, st3)
      | (none, st3) => (sentinel, st3)

/-- The chunk loop of `translate_text` (main.py lines 192-218): one
result is appended per chunk, in order. -/
def translateChunks (B : Backend) : TState → List Str → List Str × TState
  | st, [] => ([], st)
  | st, c :: rest =>
    match tryChunk B st c with
    | (r, st1) =>
      match translateChunks B st1 rest with
      | (rs, st2) => (r :: rs, st2)

/-- Python `text.strip()` (main.py line 177): remove leading and
trailing whitespace. -/
def pyStrip (s : Str) : Str :=
  ((s.dropWhile isSpacePy).reverse.dropWhile isSpacePy).reverse

/-- Outcome of a `translate_text` run: `result` is `some` returned
string or `none` when an exception propagates to the caller,
`results` is the `translated_chunks` buffer (empty on the paths that
never chunk), `state` is the backend-call instrumentation. -/
structure TransOut where
  result : Option Str
  results : List Str
  state : TState
deriving DecidableEq

/-- `DocumentTranslator.translate_text` (main.py lines 169-223).
`m` is `self.max_chunk_size`.  The parameters `targetCode`,
`sourceCode` and `translatorType` mirror the Python signature; the
source constructs `GoogleTranslator(source_code, target_code)` at
lines 181 and 187 regardless of `translator_type` (which it never
reads), and the behaviour of the constructed translator is the oracle
`B`.  On the short-text path (lines 180-183) the single backend call
is not wrapped in any `try` block, so its exception propagates. -/
def translateTextFull (B : Backend) (m : Nat) (text : Str)
    (targetCode sourceCode translatorType : String) : TransOut :=
  if pyStrip text = [] then ⟨some [], [], initTState⟩
  else if text.length ≤ m then
    match callBackend B BackendKind.google initTState text with
    | (some r, st) => ⟨some r, [], st⟩
    | (none, st) => ⟨none, [], st⟩
  else
    match translateChunks B initTState (smartChunkText m text) with
    | (rs, st) => ⟨some (joinNN rs), rs, st⟩

/-- An always-failing backend: every call raises. -/
def failB : Backend := fun _ _ _ => none

/-- An always-succeeding backend that echoes its input. -/
def okB : Backend := fun _ _ s => some s

/-- A backend whose first call of the run raises and whose later calls
succeed, echoing the input. -/
def retryB : Backend := fun _ n s => if n = 0 then none else some s

/-- Modelled from the claim's words (C2): rejoin the chunk sequence
with the same delimiters used during splitting — the paragraph
delimiter between adjacent paragraph-level chunks, direct
concatenation for sentence-level and hard-cut chunks.  This definition
follows the specification, to be compared against the source-derived
`smartChunkTagged`. -/
def rejoinSpec : List TChunk → Str
  | [] => []
  | [tc] => tc.2
  | tc1 :: tc2 :: rest =>
    tc1.2 ++ (if tc1.1 = Tag.para ∧ tc2.1 = Tag.para then nn else []) ++
      rejoinSpec (tc2 :: rest)

/-- Size invariant of an emitted chunk: at most `max_chunk_size + 2`
characters, and at most `max_chunk_size` unless it came from the
paragraph accumulator. -/
def chunkOK (m : Nat) (tc : TChunk) : Prop :=
  tc.2.length ≤ m + 2 ∧ (tc.1 ≠ Tag.para → tc.2.length ≤ m)

/-! ## Basic lemmas about the string-list operations -/

theorem joinNN_cons (p : Str) (ps : List Str) (h : ps ≠ []) :
    joinNN (p :: ps) = p ++ nn ++ joinNN ps := by
  cases ps with
  | nil => exact absurd rfl h
  | cons q qs => rfl

theorem joinNN_append (a b : List Str) (ha : a ≠ []) (hb : b ≠ []) :
    joinNN (a ++ b) = joinNN a ++ nn ++ joinNN b := by
  induction a with
  | nil => exact absurd rfl ha
  | cons p ps ih =>
    cases ps with
    | nil =>
      cases b with
      | nil => exact absurd rfl hb
      | cons q qs => simp [joinNN_cons, joinNN]
    | cons q qs =>
      rw [List.cons_append, joinNN_cons _ _ (by simp),
        joinNN_cons _ _ (by simp), ih (by simp) ]
      simp

theorem joinNN_concat (a : List Str) (p : Str) (ha : a ≠ []) :
    joinNN (a ++ [p]) = joinNN a ++ nn ++ p := by
  rw [joinNN_append a [p] ha (by simp)]
  rfl

theorem flat_append (a b : List Str) : flat (a ++ b) = flat a ++ flat b := by
  induction a with
  | nil => rfl
  | cons p ps ih => simp [flat, ih]

theorem length_le_joinNN_of_mem {p : Str} {ps : List Str} (h : p ∈ ps) :
    p.length ≤ (joinNN ps).length := by
  induction ps with
  | nil => cases h
  | cons q qs ih =>
    rcases List.mem_cons.mp h with h1 | h1
    · subst h1
      cases qs with
      | nil => simp [joinNN]
      | cons r rs => rw [joinNN_cons _ _ (by simp)]; simp
    · cases qs with
      | nil => cases h1
      | cons r rs =>
        rw [joinNN_cons _ _ (by simp)]
        have := ih h1
        simp only [List.length_append]
        omega

theorem joinNN_length_le_append (a b : List Str) :
    (joinNN a).length ≤ (joinNN (a ++ b)).length := by
  cases ha : a with
  | nil => simp [joinNN]
  | cons p ps =>
    cases hb : b with
    | nil => simp
    | cons q qs =>
      rw [joinNN_append (p :: ps) (q :: qs) (by simp) (by simp)]
      simp

/-! ## Lemmas about paragraph splitting -/

theorem splitOnNN_ne_nil (s : Str) : splitOnNN s ≠ [] := by
  match s with
  | [] => simp [splitOnNN]
  | [c] => simp [splitOnNN]
  | c :: d :: rest =>
    rw [splitOnNN]
    split
    · simp
    · cases h : splitOnNN (d :: rest) <;> simp

theorem joinNN_splitOnNN (s : Str) : joinNN (splitOnNN s) = s := by
  match s with
  | [] => rfl
  | [c] => rfl
  | c :: d :: rest =>
    rw [splitOnNN]
    split
    · rename_i hnn
      rw [joinNN_cons _ _ (splitOnNN_ne_nil rest), joinNN_splitOnNN rest]
      simp [nn, hnn.1, hnn.2]
    · cases h : splitOnNN (d :: rest) with
      | nil => exact absurd h (splitOnNN_ne_nil _)
      | cons p ps =>
        have hj : joinNN (p :: ps) = d :: rest := by
          rw [← h, joinNN_splitOnNN (d :: rest)]
        cases ps with
        | nil =>
          simp only [joinNN] at hj
          simp [joinNN, hj]
        | cons q qs =>
          rw [joinNN_cons (c :: p) (q :: qs) (by simp)]
          rw [joinNN_cons p (q :: qs) (by simp)] at hj
          simp only [List.cons_append, List.append_assoc] at hj ⊢
          rw [hj]

theorem length_le_of_mem_splitOnNN {p : Str} {s : Str} (h : p ∈ splitOnNN s) :
    p.length ≤ s.length := by
  have := length_le_joinNN_of_mem h
  rwa [joinNN_splitOnNN] at this

/-! ## Lemmas about hard cutting -/

theorem chunksOfGo_nil (m f : Nat) : chunksOfGo m f [] = [] := by
  cases f <;> rfl

theorem chunksOfGo_zero (m : Nat) (x : Char) (xs : Str) :
    chunksOfGo m 0 (x :: xs) = [x :: xs] := rfl

theorem chunksOfGo_succ (m f : Nat) (x : Char) (xs : Str) :
    chunksOfGo m (f + 1) (x :: xs) =
      (x :: xs).take m :: chunksOfGo m f ((x :: xs).drop m) := rfl

theorem chunksOf_pos (m : Nat) (hm : m ≠ 0) (s : Str) :
    chunksOf m s = chunksOfGo m s.length s := by
  simp only [chunksOf, if_neg hm]

theorem chunksOfGo_length_le (m : Nat) (hm : m ≠ 0) :
    ∀ f (s : Str), s.length ≤ f → ∀ c ∈ chunksOfGo m f s, c.length ≤ m
  | _, [], _, c, hc => by rw [chunksOfGo_nil] at hc; cases hc
  | 0, x :: xs, hf, _, _ => by simp at hf
  | f + 1, x :: xs, hf, c, hc => by
    rw [chunksOfGo_succ] at hc
    rcases List.mem_cons.mp hc with hc | hc
    · subst hc
      have := List.length_take m (x :: xs)
      simp only [this]
      omega
    · refine chunksOfGo_length_le m hm f ((x :: xs).drop m) ?_ c hc
      simp only [List.length_drop, List.length_cons] at hf ⊢
      omega

theorem chunksOf_length_le (m : Nat) (hm : m ≠ 0) (s : Str) :
    ∀ c ∈ chunksOf m s, c.length ≤ m := by
  rw [chunksOf_pos m hm]
  exact chunksOfGo_length_le m hm s.length s (le_refl _)

theorem chunksOfGo_flat (m : Nat) :
    ∀ f (s : Str), flat (chunksOfGo m f s) = s
  | _, [] => by rw [chunksOfGo_nil]; rfl
  | 0, x :: xs => by rw [chunksOfGo_zero]; simp [flat]
  | f + 1, x :: xs => by
    rw [chunksOfGo_succ, flat, chunksOfGo_flat m f ((x :: xs).drop m)]
    exact List.take_append_drop m (x :: xs)

theorem chunksOf_flat (m : Nat) (hm : m ≠ 0) (s : Str) :
    flat (chunksOf m s) = s := by
  rw [chunksOf_pos m hm]
  exact chunksOfGo_flat m s.length s

theorem chunksOfGo_get?_length (m : Nat) (hm : m ≠ 0) :
    ∀ f (s : Str), s.length ≤ f → ∀ i c, (chunksOfGo m f s).get? i = some c →
      i + 1 < (chunksOfGo m f s).length → c.length = m
  | _, [], _, i, c, hc, h => by rw [chunksOfGo_nil] at h; simp at h
  | 0, x :: xs, hf, _, _, _, _ => by simp at hf
  | f + 1, x :: xs, hf, i, c, hc, h => by
    match i with
    | 0 =>
      have hd : (x :: xs).drop m ≠ [] := by
        intro hnil
        rw [chunksOfGo_succ, hnil, chunksOfGo_nil] at h
        simp at h
      have hlen : m < (x :: xs).length := by
        by_contra hcon
        exact hd (List.drop_eq_nil_of_le (Nat.le_of_not_lt hcon))
      rw [chunksOfGo_succ] at hc
      simp only [List.get?] at hc
      cases hc
      simp only [List.length_take]
      omega
    | i + 1 =>
      rw [chunksOfGo_succ] at h hc
      simp only [List.length_cons, Nat.add_lt_add_iff_right] at h
      simp only [List.get?] at hc
      have hf2 : ((x :: xs).drop m).length ≤ f := by
        simp only [List.length_drop, List.length_cons] at hf ⊢
        omega
      exact chunksOfGo_get?_length m hm f ((x :: xs).drop m) hf2 i c hc h

theorem chunksOf_get?_length (m : Nat) (hm : m ≠ 0) (s : Str) :
    ∀ i c, (chunksOf m s).get? i = some c → i + 1 < (chunksOf m s).length →
      c.length = m := by
  intro i c hc h
  rw [chunksOf_pos m hm] at h hc
  exact chunksOfGo_get?_length m hm s.length s (le_refl _) i c hc h

/-! ## Size invariants of the chunking loops -/

theorem flat_nil : flat [] = [] := rfl

theorem flat_singleton (s : Str) : flat [s] = s := by simp [flat]

theorem chunkOK_of_le {m : Nat} (tg : Tag) {s : Str} (h : s.length ≤ m) :
    chunkOK m (tg, s) :=
  ⟨show s.length ≤ m + 2 by omega, fun _ => h⟩

theorem chunkOK_para {m : Nat} {s : Str} (h : s.length ≤ m + 2) :
    chunkOK m (Tag.para, s) :=
  ⟨h, fun hne => absurd rfl hne⟩

theorem sentLoop_ok (m : Nat) (hm : m ≠ 0) (ss : List Str) :
    ∀ chunks cur sz,
      (∀ tc ∈ chunks, chunkOK m tc) →
      (flat cur).length = sz → sz ≤ m →
      (∀ tc ∈ (sentLoop m ss chunks cur sz).1, chunkOK m tc) ∧
      (flat (sentLoop m ss chunks cur sz).2.1).length =
        (sentLoop m ss chunks cur sz).2.2 ∧
      (sentLoop m ss chunks cur sz).2.2 ≤ m := by
  induction ss with
  | nil =>
    intro chunks cur sz h1 h2 h3
    exact ⟨h1, h2, h3⟩
  | cons s rest ih =>
    intro chunks cur sz h1 h2 h3
    rw [sentLoop]
    split
    · refine ih _ _ _ ?_ h2 h3
      intro tc htc
      rcases List.mem_append.mp htc with h | h
      · exact h1 tc h
      · rcases List.mem_map.mp h with ⟨c, hc, rfl⟩
        exact chunkOK_of_le Tag.cut (chunksOf_length_le m hm s c hc)
    · rename_i hbig
      split
      · rename_i hover
        refine ih _ _ _ ?_ (by rw [flat_singleton]) (by omega)
        intro tc htc
        split at htc
        · exact h1 tc htc
        · rcases List.mem_append.mp htc with h | h
          · exact h1 tc h
          · rcases List.mem_singleton.mp h with rfl
            exact chunkOK_of_le Tag.sent (by omega)
      · rename_i hfits
        refine ih _ _ _ h1 ?_ (by omega)
        rw [flat_append, flat_singleton, List.length_append]
        omega

theorem paraLoop_ok (m : Nat) (hm : m ≠ 0) (ps : List Str) :
    ∀ chunks cur sz,
      (∀ tc ∈ chunks, chunkOK m tc) →
      (joinNN cur).length ≤ sz →
      sz ≤ m + 2 →
      ∀ tc ∈ paraLoop m ps chunks cur sz, chunkOK m tc := by
  induction ps with
  | nil =>
    intro chunks cur sz h1 h2 h3
    rw [paraLoop]
    split
    · exact h1
    · intro tc htc
      rcases List.mem_append.mp htc with h | h
      · exact h1 tc h
      · rcases List.mem_singleton.mp h with rfl
        exact chunkOK_para (by omega)
  | cons p rest ih =>
    intro chunks cur sz h1 h2 h3
    rw [paraLoop]
    split
    · -- oversized paragraph: flush, run sentence loop, flush its accumulator
      set st1 := (if cur = [] then chunks
          else chunks ++ [(Tag.para, joinNN cur)]) with hst1
      have hflush : ∀ tc ∈ st1, chunkOK m tc := by
        rw [hst1]
        split
        · exact h1
        · intro tc htc
          rcases List.mem_append.mp htc with h | h
          · exact h1 tc h
          · rcases List.mem_singleton.mp h with rfl
            exact chunkOK_para (by omega)
      have hsent := sentLoop_ok m hm (reSplit p) st1 [] 0 hflush rfl (Nat.zero_le m)
      rcases hsent with ⟨hs1, hs2, hs3⟩
      refine ih _ _ _ ?_ (by simp [joinNN]) (by omega)
      intro tc htc
      by_cases hc2 : (sentLoop m (reSplit p) st1 [] 0).2.1 = []
      · rw [if_pos hc2] at htc
        exact hs1 tc htc
      · rw [if_neg hc2] at htc
        rcases List.mem_append.mp htc with h | h
        · exact hs1 tc h
        · rcases List.mem_singleton.mp h with rfl
          exact chunkOK_of_le Tag.sent (by rw [hs2]; exact hs3)
    · rename_i hbig
      split
      · refine ih _ _ _ ?_ (by simp [joinNN]) (by omega)
        intro tc htc
        rcases List.mem_append.mp htc with h | h
        · exact h1 tc h
        · rcases List.mem_singleton.mp h with rfl
          exact chunkOK_para (by omega)
      · rename_i hfits
        refine ih _ _ _ h1 ?_ (by omega)
        by_cases hcur : cur = []
        · subst hcur
          simp only [List.nil_append, joinNN]
          omega
        · rw [joinNN_concat cur p hcur]
          simp only [List.length_append]
          have hnn : (nn).length = 2 := rfl
          omega

/-- C1 (counterexample): with `max_size = 10` and the text
`"aaaaaaaaa\n\nbbbbbb\n\ncccc"`, `smart_chunk_text` emits the chunk
`"bbbbbb\n\ncccc"` from the paragraph accumulator — normal
paragraph-level splitting, not the hard-cut fallback — and that chunk
has 12 > 10 characters, refuting the claimed `length(chunk) ≤ max_size`
bound for normal chunks. -/
theorem c1_counterexample :
    (Tag.para, strLit "bbbbbb\n\ncccc") ∈
      smartChunkTagged 10 (strLit "aaaaaaaaa\n\nbbbbbb\n\ncccc") ∧
    (Tag.para : Tag) ≠ Tag.cut ∧ 0 < 10 ∧
    10 < (strLit "bbbbbb\n\ncccc").length := by decide

/-- C1 (amended): for every `max_size > 0` and text, every chunk
emitted by `smart_chunk_text` has length at most `max_size + 2`, and
every chunk not emitted from the paragraph accumulator (sentence
packing and hard cuts) has length at most `max_size`.  Paragraph-level
chunks can exceed `max_size` by up to the 2-character paragraph
delimiter because the running size counter is reset to the bare
paragraph length after a flush (main.py line 146) while later
additions count the delimiter (line 149). -/
theorem c1_normal_chunk_size_bound (m : Nat) (t : Str) (hm : 0 < m) :
    ∀ tc ∈ smartChunkTagged m t,
      tc.2.length ≤ m + 2 ∧ (tc.1 ≠ Tag.para → tc.2.length ≤ m) := by
  intro tc htc
  exact paraLoop_ok m (by omega) (splitOnNN t) [] [] 0
    (by intro tc h; cases h) (by simp [joinNN]) (by omega) tc htc

/-- Witness for C1 (amended) at `max_size = 3`, text `"ab. cd"`,
chunk `("sent", "ab.")`. -/
theorem c1_witness :
    (Tag.sent, strLit "ab.") ∈ smartChunkTagged 3 (strLit "ab. cd") ∧
    ((Tag.sent, strLit "ab.") : TChunk).2.length ≤ 3 + 2 ∧
    (((Tag.sent, strLit "ab.") : TChunk).1 ≠ Tag.para →
      ((Tag.sent, strLit "ab.") : TChunk).2.length ≤ 3) :=
  ⟨by decide, c1_normal_chunk_size_bound 3 (strLit "ab. cd") (by decide)
    (Tag.sent, strLit "ab.") (by decide)⟩

/-! ## Round-trip properties of the chunking loops -/

theorem joinNN_middle (A : List Str) (x y : Str) (R : List Str) :
    joinNN (A ++ (x ++ nn ++ y) :: R) = joinNN (A ++ x :: y :: R) := by
  induction A with
  | nil =>
    cases R with
    | nil => simp [joinNN]
    | cons r rs =>
      rw [List.nil_append, List.nil_append, joinNN_cons _ _ (by simp),
        joinNN_cons x (y :: r :: rs) (by simp), joinNN_cons y (r :: rs) (by simp)]
      simp [List.append_assoc]
  | cons a A ih =>
    rw [List.cons_append, List.cons_append, joinNN_cons _ _ (by simp),
      joinNN_cons _ _ (by simp), ih]

theorem paraLoop_join (m : Nat) (ps : List Str) :
    ∀ chunks cur sz,
      (∀ p ∈ ps, p.length ≤ m) →
      (cur = [] → sz = 0) →
      joinNN ((paraLoop m ps chunks cur sz).map Prod.snd) =
        joinNN ((chunks.map Prod.snd) ++
          (if cur = [] then ps else joinNN cur :: ps)) := by
  induction ps with
  | nil =>
    intro chunks cur sz hp hcur
    rw [paraLoop]
    by_cases hc : cur = []
    · rw [if_pos hc, if_pos hc, List.append_nil]
    · rw [if_neg hc, if_neg hc, List.map_append]
      rfl
  | cons p rest ih =>
    intro chunks cur sz hp hcur
    have hple : p.length ≤ m := hp p (by simp)
    rw [paraLoop, if_neg (by omega)]
    by_cases hguard : m < sz + p.length
    · rw [if_pos hguard]
      have hcne : cur ≠ [] := by
        intro hc
        have := hcur hc
        omega
      rw [ih _ _ _ (fun q hq => hp q (by simp [hq])) (by intro h; cases h)]
      rw [if_neg (by simp), if_neg hcne, List.map_append]
      simp [joinNN, List.append_assoc]
    · rw [if_neg hguard]
      rw [ih _ _ _ (fun q hq => hp q (by simp [hq])) (by intro h; simp at h)]
      rw [if_neg (by simp)]
      by_cases hc : cur = []
      · subst hc
        rw [if_pos rfl, List.nil_append]
        simp [joinNN]
      · rw [if_neg hc, joinNN_concat cur p hc, joinNN_middle]

/-- C2 (counterexample): with `max_size = 3` and the single-paragraph
text `"ab. cd"`, the chunks are `["ab.", "cd"]` (both sentence-level);
rejoining them with the claimed delimiters (direct concatenation for
sentence-level chunks) gives `"ab.cd" ≠ "ab. cd"`.  The space after the
period is lost: the original has one space character, the chunks
together have none, so no choice of inserted delimiters can
reconstruct the text. -/
theorem c2_counterexample :
    rejoinSpec (smartChunkTagged 3 (strLit "ab. cd")) ≠ strLit "ab. cd" ∧
    (strLit "ab. cd").count ' ' = 1 ∧
    (flat (smartChunkText 3 (strLit "ab. cd"))).count ' ' = 0 := by decide

/-- C2 (amended): when no paragraph of `t` exceeds `max_size` — so no
sentence-level splitting or hard-cutting occurs — joining the chunks
of `smart_chunk_text` with the paragraph delimiter reconstructs `t`
exactly.  When a paragraph is oversized, the sentence splitter discards
the whitespace that follows sentence-terminating punctuation, so
rejoining with the stated delimiters can fail to reconstruct `t`. -/
theorem c2_paragraph_roundtrip (m : Nat) (t : Str)
    (h : ∀ p ∈ splitOnNN t, p.length ≤ m) :
    joinNN (smartChunkText m t) = t := by
  rw [smartChunkText, smartChunkTagged,
    paraLoop_join m (splitOnNN t) [] [] 0 h (fun _ => rfl)]
  rw [List.map_nil, List.nil_append, if_pos rfl, joinNN_splitOnNN]

/-- Witness for C2 (amended) at `max_size = 4`, text `"a\n\nbb"`. -/
theorem c2_witness :
    (∀ p ∈ splitOnNN (strLit "a\n\nbb"), p.length ≤ 4) ∧
    joinNN (smartChunkText 4 (strLit "a\n\nbb")) = strLit "a\n\nbb" :=
  ⟨by decide, c2_paragraph_roundtrip 4 (strLit "a\n\nbb") (by decide)⟩

theorem paraLoop_small (m : Nat) (ps : List Str) :
    ∀ chunks cur sz,
      (cur = [] → sz = 0) →
      (cur ≠ [] → sz ≤ (joinNN cur).length + 2) →
      (joinNN (cur ++ ps)).length ≤ m →
      paraLoop m ps chunks cur sz =
        if cur ++ ps = [] then chunks
        else chunks ++ [(Tag.para, joinNN (cur ++ ps))] := by
  induction ps with
  | nil =>
    intro chunks cur sz h0 h1 h2
    rw [paraLoop, List.append_nil]
  | cons p rest ih =>
    intro chunks cur sz h0 h1 h2
    have hmem : p.length ≤ (joinNN (cur ++ p :: rest)).length :=
      length_le_joinNN_of_mem (by simp)
    have hnn : nn.length = 2 := rfl
    rw [paraLoop, if_neg (by omega)]
    have hsz : sz + p.length ≤ m := by
      by_cases hc : cur = []
      · have := h0 hc
        omega
      · have hs := h1 hc
        have hmono : (joinNN (cur ++ [p])).length ≤
            (joinNN ((cur ++ [p]) ++ rest)).length := joinNN_length_le_append _ _
        rw [joinNN_concat cur p hc] at hmono
        have hassoc : (cur ++ [p]) ++ rest = cur ++ p :: rest := by simp
        rw [hassoc] at hmono
        simp only [List.length_append] at hmono
        omega
    rw [if_neg (by omega)]
    have h1' : cur ++ [p] ≠ [] → sz + p.length + 2 ≤
        (joinNN (cur ++ [p])).length + 2 := by
      intro _
      by_cases hc : cur = []
      · subst hc
        have := h0 rfl
        simp [joinNN]
        omega
      · rw [joinNN_concat cur p hc]
        have hs := h1 hc
        simp only [List.length_append]
        omega
    have h2' : (joinNN ((cur ++ [p]) ++ rest)).length ≤ m := by
      have hassoc : (cur ++ [p]) ++ rest = cur ++ p :: rest := by simp
      rw [hassoc]
      exact h2
    rw [ih _ _ _ (by intro h; simp at h) h1' h2']
    simp [List.append_assoc]

theorem paraLoop_tags (m : Nat) (ps : List Str) :
    ∀ chunks cur sz,
      (∀ p ∈ ps, p.length ≤ m) →
      ∀ tc ∈ paraLoop m ps chunks cur sz, tc ∈ chunks ∨ tc.1 = Tag.para := by
  induction ps with
  | nil =>
    intro chunks cur sz hp tc htc
    rw [paraLoop] at htc
    by_cases hc : cur = []
    · rw [if_pos hc] at htc
      exact Or.inl htc
    · rw [if_neg hc] at htc
      rcases List.mem_append.mp htc with h | h
      · exact Or.inl h
      · rcases List.mem_singleton.mp h with rfl
        exact Or.inr rfl
  | cons p rest ih =>
    intro chunks cur sz hp tc htc
    rw [paraLoop, if_neg (by have := hp p (by simp); omega)] at htc
    by_cases hguard : m < sz + p.length
    · rw [if_pos hguard] at htc
      rcases ih _ _ _ (fun q hq => hp q (by simp [hq])) tc htc with h | h
      · rcases List.mem_append.mp h with h' | h'
        · exact Or.inl h'
        · rcases List.mem_singleton.mp h' with rfl
          exact Or.inr rfl
      · exact Or.inr h
    · rw [if_neg hguard] at htc
      exact ih _ _ _ (fun q hq => hp q (by simp [hq])) tc htc

/-- C5 (counterexample): `smart_chunk_text` applied to the empty string
returns `[""]` — a one-element list containing the empty chunk — not
the empty sequence: `"".split("\n\n")` is `[""]`, the empty paragraph
is accumulated, and the final flush emits it. -/
theorem c5_counterexample :
    smartChunkText 1500 [] = [[]] ∧ smartChunkText 1500 [] ≠ [] := by decide

/-- C5 (amended): `smart_chunk_text` applied to the empty string
returns the one-element sequence containing the empty string; for every
text `t` with `0 < length t ≤ max_size` it returns exactly the
one-element sequence `[t]`; and whenever every paragraph of a text has
length at most `max_size` (in particular a paragraph of exactly
`max_size` characters) the paragraph is treated as fitting: every
chunk is emitted from the paragraph accumulator, never by sentence
splitting or hard-cutting. -/
theorem c5_empty_and_small_text (m : Nat) (t t2 : Str)
    (h1 : 0 < t.length) (h2 : t.length ≤ m)
    (h3 : ∀ p ∈ splitOnNN t2, p.length ≤ m) :
    smartChunkText m [] = [[]] ∧ smartChunkText m t = [t] ∧
      ∀ tc ∈ smartChunkTagged m t2, tc.1 = Tag.para := by
  refine ⟨?_, ?_, ?_⟩
  · rw [smartChunkText, smartChunkTagged]
    have hsp : splitOnNN ([] : Str) = [[]] := rfl
    rw [hsp, paraLoop_small m [[]] [] [] 0 (fun _ => rfl)
      (fun h => absurd rfl h) (by simp [joinNN])]
    rw [if_neg (by simp)]
    rfl
  · rw [smartChunkText, smartChunkTagged,
      paraLoop_small m (splitOnNN t) [] [] 0 (fun _ => rfl)
        (fun h => absurd rfl h)
        (by rw [List.nil_append, joinNN_splitOnNN]; exact h2)]
    rw [List.nil_append, if_neg (splitOnNN_ne_nil t), joinNN_splitOnNN]
    rfl
  · intro tc htc
    rcases paraLoop_tags m (splitOnNN t2) [] [] 0 h3 tc htc with h | h
    · cases h
    · exact h

/-- Witness for C5 (amended) at `max_size = 5`, `t = "ab"`,
`t2 = "abcde\n\nxy"` (its first paragraph has exactly 5 characters). -/
theorem c5_witness :
    0 < (strLit "ab").length ∧ (strLit "ab").length ≤ 5 ∧
    smartChunkText 5 [] = [[]] ∧ smartChunkText 5 (strLit "ab") = [strLit "ab"] ∧
    ∀ tc ∈ smartChunkTagged 5 (strLit "abcde\n\nxy"), tc.1 = Tag.para := by
  have h := c5_empty_and_small_text 5 (strLit "ab") (strLit "abcde\n\nxy")
    (by decide) (by decide) (by decide)
  exact ⟨by decide, by decide, h.1, h.2.1, h.2.2⟩

/-! ## Hard-cut fallback for a single oversized sentence -/

theorem chunksOfGo_fuel (m : Nat) (hm : m ≠ 0) :
    ∀ f (s : Str), s.length ≤ f → chunksOfGo m f s = chunksOfGo m s.length s
  | _, [], _ => by rw [chunksOfGo_nil, chunksOfGo_nil]
  | 0, x :: xs, hf => by simp at hf
  | f + 1, x :: xs, hf => by
    rw [chunksOfGo_succ]
    have hlen : (x :: xs).length = xs.length + 1 := rfl
    rw [hlen, chunksOfGo_succ]
    congr 1
    rw [chunksOfGo_fuel m hm f ((x :: xs).drop m)
        (by simp only [List.length_drop, List.length_cons] at hf ⊢; omega),
      chunksOfGo_fuel m hm xs.length ((x :: xs).drop m)
        (by simp only [List.length_drop, List.length_cons]; omega)]

theorem chunksOf_nil (m : Nat) (hm : m ≠ 0) : chunksOf m [] = [] := by
  rw [chunksOf_pos m hm, chunksOfGo_nil]

theorem chunksOf_peel (m : Nat) (hm : m ≠ 0) (s : Str) (hs : s ≠ []) :
    chunksOf m s = s.take m :: chunksOf m (s.drop m) := by
  cases s with
  | nil => exact absurd rfl hs
  | cons x xs =>
    rw [chunksOf_pos m hm, chunksOf_pos m hm]
    have hlen : (x :: xs).length = xs.length + 1 := rfl
    rw [hlen, chunksOfGo_succ]
    congr 1
    exact chunksOfGo_fuel m hm xs.length ((x :: xs).drop m)
      (by simp only [List.length_drop, List.length_cons]; omega)

theorem splitOnNN_no_newline (t : Str) (h : ∀ c ∈ t, c ≠ '\n') :
    splitOnNN t = [t] := by
  induction t with
  | nil => rfl
  | cons c rest ih =>
    cases rest with
    | nil => rfl
    | cons d rest2 =>
      rw [splitOnNN, if_neg (fun hc => h c (by simp) hc.1)]
      rw [ih (fun x hx => h x (List.mem_cons_of_mem c hx))]

theorem reSplitAux_no_punct (t : Str) (h : ∀ c ∈ t, isPunct c = false) :
    reSplitAux RMode.norm t = [t] := by
  induction t with
  | nil => rfl
  | cons c rest ih =>
    have hc := h c (by simp)
    have hr := ih (fun x hx => h x (List.mem_cons_of_mem c hx))
    simp [reSplitAux, modeOf, hc, hr, consHead]

theorem reSplit_no_punct (t : Str) (h : ∀ c ∈ t, isPunct c = false) :
    reSplit t = [t] :=
  reSplitAux_no_punct t h

theorem smartChunkTagged_one_long_sentence (m : Nat) (t : Str)
    (hnl : ∀ c ∈ t, c ≠ '\n') (hpt : ∀ c ∈ t, isPunct c = false)
    (hlen : m < t.length) :
    smartChunkTagged m t = (chunksOf m t).map (fun c => (Tag.cut, c)) := by
  rw [smartChunkTagged, splitOnNN_no_newline t hnl]
  simp [paraLoop, sentLoop, reSplit_no_punct t hpt, hlen]

/-- C9 (confirmed): when a single sentence alone exceeds `max_size`,
`smart_chunk_text` hard-cuts it into consecutive slices: every slice
has at most `max_size` characters, every non-terminal slice has
exactly `max_size` characters, and concatenating the slices restores
the sentence.  A text that is one oversized "sentence" (no paragraph
break, no terminator punctuation) is chunked to exactly these slices;
in particular one 3000-character sentence with `max_size = 1500`
yields exactly 2 chunks of 1500 and 1500 characters. -/
theorem c9_hard_cut_slices (m : Nat) (s t : Str) (hm : 0 < m)
    (hnl : ∀ c ∈ t, c ≠ '\n') (hpt : ∀ c ∈ t, isPunct c = false)
    (hlen : m < t.length) :
    (∀ c ∈ chunksOf m s, c.length ≤ m) ∧
    (∀ i c, (chunksOf m s).get? i = some c →
      i + 1 < (chunksOf m s).length → c.length = m) ∧
    flat (chunksOf m s) = s ∧
    smartChunkText m t = chunksOf m t ∧
    smartChunkText 1500 (List.replicate 3000 'x') =
      [List.replicate 1500 'x', List.replicate 1500 'x'] := by
  have hmap : ∀ l : List Str, (l.map (fun c => (Tag.cut, c))).map Prod.snd = l := by
    intro l
    induction l with
    | nil => rfl
    | cons a l ih => simp only [List.map_cons, ih]
  have hne : ∀ n : Nat, n ≠ 0 → (List.replicate n 'x' : Str) ≠ [] := by
    intro n hn hcon
    have hl := congrArg List.length hcon
    rw [List.length_replicate] at hl
    exact hn hl
  refine ⟨chunksOf_length_le m (by omega) s, chunksOf_get?_length m (by omega) s,
    chunksOf_flat m (by omega) s, ?_, ?_⟩
  · rw [smartChunkText, smartChunkTagged_one_long_sentence m t hnl hpt hlen, hmap]
  · have h1 : smartChunkText 1500 (List.replicate 3000 'x') =
        chunksOf 1500 (List.replicate 3000 'x') := by
      rw [smartChunkText,
        smartChunkTagged_one_long_sentence 1500 (List.replicate 3000 'x')
          (fun c hc => by rw [List.eq_of_mem_replicate hc]; decide)
          (fun c hc => by rw [List.eq_of_mem_replicate hc]; decide)
          (by rw [List.length_replicate]; omega), hmap]
    have e1 : (List.replicate 3000 'x' : Str).take 1500 = List.replicate 1500 'x' := by
      rw [List.take_replicate]
      congr 1
    have e2 : (List.replicate 3000 'x' : Str).drop 1500 = List.replicate 1500 'x' := by
      rw [List.drop_replicate]
    have e3 : (List.replicate 1500 'x' : Str).take 1500 = List.replicate 1500 'x' := by
      rw [List.take_replicate]
      congr 1
    have e4 : (List.replicate 1500 'x' : Str).drop 1500 = ([] : Str) := by
      rw [List.drop_replicate, Nat.sub_self]
      rfl
    rw [h1, chunksOf_peel 1500 (by omega) _ (hne 3000 (by omega)), e1, e2,
      chunksOf_peel 1500 (by omega) _ (hne 1500 (by omega)), e3, e4,
      chunksOf_nil 1500 (by omega)]

/-- Witness for C9 at `max_size = 2`, sentence `"abcde"`. -/
theorem c9_witness :
    (∀ c ∈ strLit "abcde", c ≠ '\n') ∧ 2 < (strLit "abcde").length ∧
    smartChunkText 2 (strLit "abcde") = chunksOf 2 (strLit "abcde") ∧
    flat (chunksOf 2 (strLit "abcde")) = strLit "abcde" := by
  have h := c9_hard_cut_slices 2 (strLit "abcde") (strLit "abcde") (by decide)
    (by decide) (by decide) (by decide)
  exact ⟨by decide, by decide, h.2.2.2.1, h.2.2.1⟩

/-! ## The translation pipeline -/

theorem tryChunk_cases (B : Backend) (st : TState) (c : Str) :
    (tryChunk B st c).1 = sentinel ∨
    ∃ n, B BackendKind.google n c = some ((tryChunk B st c).1) := by
  rw [tryChunk]
  simp only [callBackend]
  cases h1 : B BackendKind.google st.counter c with
  | some r => exact Or.inr ⟨st.counter, h1⟩
  | none =>
    dsimp only
    cases h2 : B BackendKind.google (st.counter + 1) c with
    | some r => exact Or.inr ⟨st.counter + 1, h2⟩
    | none =>
      dsimp only
      cases h3 : B BackendKind.google (st.counter + 1 + 1) c with
      | some r => exact Or.inr ⟨st.counter + 1 + 1, h3⟩
      | none => exact Or.inl rfl

theorem tryChunk_fst_of_fail (B : Backend) (st : TState) (c : Str)
    (h : ∀ n, B BackendKind.google n c = none) :
    (tryChunk B st c).1 = sentinel := by
  rw [tryChunk]
  simp only [callBackend, h]

theorem translateChunks_cons (B : Backend) (st : TState) (c : Str)
    (rest : List Str) :
    translateChunks B st (c :: rest) =
      ((tryChunk B st c).1 :: (translateChunks B (tryChunk B st c).2 rest).1,
       (translateChunks B (tryChunk B st c).2 rest).2) := rfl

theorem translateChunks_length (B : Backend) :
    ∀ (cs : List Str) (st : TState),
      ((translateChunks B st cs).1).length = cs.length
  | [], _ => rfl
  | c :: rest, st => by
    rw [translateChunks_cons]
    simp only [List.length_cons, translateChunks_length B rest _]

theorem translateChunks_get? (B : Backend) :
    ∀ (cs : List Str) (st : TState) (i : Nat) (r ch : Str),
      (translateChunks B st cs).1.get? i = some r → cs.get? i = some ch →
      r = sentinel ∨ ∃ n, B BackendKind.google n ch = some r
  | [], _, i, r, ch, _, hch => by simp at hch
  | c :: rest, st, 0, r, ch, hr, hch => by
    rw [translateChunks_cons] at hr
    simp only [List.get?] at hr hch
    cases hr
    cases hch
    exact tryChunk_cases B st c
  | c :: rest, st, i + 1, r, ch, hr, hch => by
    rw [translateChunks_cons] at hr
    simp only [List.get?] at hr hch
    exact translateChunks_get? B rest _ i r ch hr hch

theorem translateChunks_allFail (B : Backend)
    (hB : ∀ n s, B BackendKind.google n s = none) :
    ∀ (cs : List Str) (st : TState),
      (translateChunks B st cs).1 = cs.map (fun _ => sentinel)
  | [], _ => rfl
  | c :: rest, st => by
    rw [translateChunks_cons]
    simp only [List.map_cons]
    rw [tryChunk_fst_of_fail B st c (fun n => hB n c),
      translateChunks_allFail B hB rest _]

theorem translateTextFull_stripped (B : Backend) (m : Nat) (text : Str)
    (a b c : String) (hs : pyStrip text = []) :
    translateTextFull B m text a b c = ⟨some [], [], initTState⟩ := by
  rw [translateTextFull, if_pos hs]

theorem translateTextFull_short (B : Backend) (m : Nat) (text : Str)
    (a b c : String) (hs : pyStrip text ≠ []) (hm : text.length ≤ m) :
    translateTextFull B m text a b c =
      match B BackendKind.google 0 text with
      | some r => ⟨some r, [], ⟨1, [(BackendKind.google, text)]⟩⟩
      | none => ⟨none, [], ⟨1, [(BackendKind.google, text)]⟩⟩ := by
  rw [translateTextFull, if_neg hs, if_pos hm]
  simp only [callBackend, initTState]
  cases B BackendKind.google 0 text <;> rfl

theorem translateTextFull_long (B : Backend) (m : Nat) (text : Str)
    (a b c : String) (hs : pyStrip text ≠ []) (hm : m < text.length) :
    translateTextFull B m text a b c =
      ⟨some (joinNN (translateChunks B initTState (smartChunkText m text)).1),
       (translateChunks B initTState (smartChunkText m text)).1,
       (translateChunks B initTState (smartChunkText m text)).2⟩ := by
  rw [translateTextFull, if_neg hs, if_neg (by omega)]

/-- C3 (counterexample): for the non-empty text `"ab"` (shorter than
the default `max_chunk_size = 1500`) and an always-failing backend,
`translate_text` raises: the single backend call on the short-text
path (main.py line 183) is not wrapped in any try/except, so its
exception propagates to the caller even though it is a backend-call
error, not a pre-flight error. -/
theorem c3_counterexample :
    strLit "ab" ≠ [] ∧
    (translateTextFull failB 1500 (strLit "ab") "zh-CN" "auto" "google").result =
      none := by decide

/-- C3 (amended): for every input text longer than `max_chunk_size`
and not whitespace-only, `translate_text` never raises due to failing
backend calls: it returns the joined per-chunk results, and with a
backend that always fails every chunk's result is the sentinel string
`"[Translation unavailable for this section]"`.  For non-empty texts
of length at most `max_chunk_size` the single backend call is made
outside the retry logic and its failure propagates to the caller. -/
theorem c3_long_text_never_raises (B : Backend) (m : Nat) (text : Str)
    (a b c : String) (hs : pyStrip text ≠ []) (hm : m < text.length) :
    (translateTextFull B m text a b c).result =
      some (joinNN (translateTextFull B m text a b c).results) ∧
    ((∀ n s, B BackendKind.google n s = none) →
      (translateTextFull B m text a b c).results =
        (smartChunkText m text).map (fun _ => sentinel)) := by
  rw [translateTextFull_long B m text a b c hs hm]
  exact ⟨rfl, fun hB => translateChunks_allFail B hB _ _⟩

/-- Witness for C3 (amended) with the always-failing backend at
`max_chunk_size = 3`, text `"ab. cd"`. -/
theorem c3_witness :
    pyStrip (strLit "ab. cd") ≠ [] ∧ 3 < (strLit "ab. cd").length ∧
    (translateTextFull failB 3 (strLit "ab. cd") "zh-CN" "auto" "google").result =
      some (joinNN
        (translateTextFull failB 3 (strLit "ab. cd") "zh-CN" "auto" "google").results) ∧
    (translateTextFull failB 3 (strLit "ab. cd") "zh-CN" "auto" "google").results =
      (smartChunkText 3 (strLit "ab. cd")).map (fun _ => sentinel) := by
  have h := c3_long_text_never_raises failB 3 (strLit "ab. cd") "zh-CN" "auto"
    "google" (by decide) (by decide)
  exact ⟨by decide, by decide, h.1, h.2 (fun _ _ => rfl)⟩

/-- C4 (code bug): `get_translator_instance` maps the selection keys
to the three backend implementations as claimed, but `translate_text`
never calls it: it constructs `GoogleTranslator` directly (main.py
lines 181 and 187), so with `translator_type = "mymemory"` every
backend call of the run — shown here on both the chunked and the
short-text path — still goes to the Google implementation, not the
designated MyMemory implementation. -/
theorem c4_translator_type_ignored :
    getTranslatorInstance "mymemory" = BackendKind.mymemory ∧
    getTranslatorInstance "microsoft" = BackendKind.microsoft ∧
    getTranslatorInstance "google" = BackendKind.google ∧
    (translateTextFull okB 3 (strLit "ab. cd") "zh-CN" "auto"
        "mymemory").state.log.map Prod.fst =
      [BackendKind.google, BackendKind.google] ∧
    (translateTextFull okB 1500 (strLit "ab") "zh-CN" "auto"
        "mymemory").state.log.map Prod.fst = [BackendKind.google] := by decide

/-- C6 (counterexample): a whitespace-only text longer than
`max_chunk_size` returns the empty string from the whitespace guard
with no per-chunk results at all, while the Chunker applied to that
text yields 2 chunks — so for this input the result sequence does not
have the same length as the chunk sequence. -/
theorem c6_counterexample :
    3 < (strLit "    ").length ∧
    (translateTextFull okB 3 (strLit "    ") "zh-CN" "auto"
      "google").results.length = 0 ∧
    (smartChunkText 3 (strLit "    ")).length = 2 := by decide

/-- C6 (amended): for every input text longer than `max_chunk_size`
that is not whitespace-only, and every backend, the per-chunk result
sequence of `translate_text` has exactly the same length and order as
the chunk sequence of `smart_chunk_text` — each chunk contributes one
result, either a backend translation of that chunk or the sentinel —
and the returned string is these results joined with the paragraph
delimiter in original order. -/
theorem c6_results_align_with_chunks (B : Backend) (m : Nat) (text : Str)
    (a b c : String) (hs : pyStrip text ≠ []) (hm : m < text.length) :
    (translateTextFull B m text a b c).results.length =
      (smartChunkText m text).length ∧
    (translateTextFull B m text a b c).result =
      some (joinNN (translateTextFull B m text a b c).results) ∧
    (∀ i r ch, (translateTextFull B m text a b c).results.get? i = some r →
      (smartChunkText m text).get? i = some ch →
      r = sentinel ∨ ∃ n, B BackendKind.google n ch = some r) := by
  rw [translateTextFull_long B m text a b c hs hm]
  exact ⟨translateChunks_length B _ _, rfl,
    fun i r ch hr hch => translateChunks_get? B _ _ i r ch hr hch⟩

/-- Witness for C6 (amended) with the echoing backend at
`max_chunk_size = 3`, text `"ab. cd"` (2 chunks, 2 results). -/
theorem c6_witness :
    pyStrip (strLit "ab. cd") ≠ [] ∧ 3 < (strLit "ab. cd").length ∧
    (translateTextFull okB 3 (strLit "ab. cd") "zh-CN" "auto"
        "google").results.length = (smartChunkText 3 (strLit "ab. cd")).length := by
  have h := c6_results_align_with_chunks okB 3 (strLit "ab. cd") "zh-CN" "auto"
    "google" (by decide) (by decide)
  exact ⟨by decide, by decide, h.1⟩

/-- C7 (confirmed): on an empty or whitespace-only text,
`translate_text` returns the empty string immediately with no backend
call (zero calls, empty log); on any other text of length at most
`max_chunk_size` it makes exactly one backend call, on the whole text,
and when that call returns a translation the function returns it
directly. -/
theorem c7_short_text_paths (B : Backend) (m : Nat) (text : Str)
    (a b c : String) :
    (pyStrip text = [] →
      translateTextFull B m text a b c = ⟨some [], [], initTState⟩) ∧
    (pyStrip text ≠ [] → text.length ≤ m →
      (translateTextFull B m text a b c).state.counter = 1 ∧
      (translateTextFull B m text a b c).state.log =
        [(BackendKind.google, text)] ∧
      ∀ r, B BackendKind.google 0 text = some r →
        (translateTextFull B m text a b c).result = some r) := by
  constructor
  · intro hs
    exact translateTextFull_stripped B m text a b c hs
  · intro hs hm
    rw [translateTextFull_short B m text a b c hs hm]
    cases hB : B BackendKind.google 0 text with
    | some r =>
      exact ⟨rfl, rfl, fun r' hr' => by cases hr'; rfl⟩
    | none =>
      exact ⟨rfl, rfl, fun r' hr' => Option.noConfusion hr'⟩

/-- Witness for C7: whitespace-only text `" \n "` and short text
`"ab"` with the echoing backend. -/
theorem c7_witness :
    pyStrip (strLit " \n ") = [] ∧
    translateTextFull okB 5 (strLit " \n ") "zh-CN" "auto" "google" =
      ⟨some [], [], initTState⟩ ∧
    (translateTextFull okB 5 (strLit "ab") "zh-CN" "auto"
      "google").state.counter = 1 ∧
    (translateTextFull okB 5 (strLit "ab") "zh-CN" "auto" "google").result =
      some (strLit "ab") := by
  have h1 := (c7_short_text_paths okB 5 (strLit " \n ") "zh-CN" "auto"
    "google").1 (by decide)
  have h2 := (c7_short_text_paths okB 5 (strLit "ab") "zh-CN" "auto"
    "google").2 (by decide) (by decide)
  exact ⟨by decide, h1, h2.1, h2.2.2 (strLit "ab") rfl⟩

/-- C8 (confirmed): for a backend that fails on the first attempt for
a chunk and succeeds on the second, the per-chunk retry loop of
`translate_text` makes exactly 2 backend calls for that chunk (the
call counter advances by 2 and exactly 2 calls are logged) and the
chunk's result is the real translated text returned by the second
attempt, not the sentinel. -/
theorem c8_retry_second_attempt (B : Backend) (st : TState) (c r : Str)
    (h0 : B BackendKind.google st.counter c = none)
    (h1 : B BackendKind.google (st.counter + 1) c = some r) :
    tryChunk B st c =
      (r, ⟨st.counter + 2,
        st.log ++ [(BackendKind.google, c), (BackendKind.google, c)]⟩) := by
  rw [tryChunk]
  simp only [callBackend, h0, h1]
  rw [List.append_assoc]
  rfl

/-- Witness for C8: the backend `retryB` fails on call 0 and succeeds
from call 1; the chunk `"ab."` gets its real translation after exactly
2 calls, and in the full pipeline run on `"ab. cd"` no sentinel
appears. -/
theorem c8_witness :
    retryB BackendKind.google 0 (strLit "ab.") = none ∧
    retryB BackendKind.google 1 (strLit "ab.") = some (strLit "ab.") ∧
    tryChunk retryB initTState (strLit "ab.") =
      (strLit "ab.", ⟨2, [(BackendKind.google, strLit "ab."),
        (BackendKind.google, strLit "ab.")]⟩) ∧
    (translateTextFull retryB 3 (strLit "ab. cd") "zh-CN" "auto"
      "google").results = [strLit "ab.", strLit "cd"] := by
  refine ⟨rfl, rfl, ?_, by decide⟩
  exact c8_retry_second_attempt retryB initTState (strLit "ab.") (strLit "ab.")
    rfl rfl

/-- C10 (confirmed): the result of `translate_text` is independent of
its `translator_type` argument — the source never reads the parameter
(it hardcodes `GoogleTranslator` at main.py lines 181 and 187), so two
runs that differ only in the selection key produce identical outcomes:
same returned value, same per-chunk results, same backend-call log. -/
theorem c10_translator_type_noninterference (B : Backend) (m : Nat)
    (text : Str) (targetCode sourceCode : String) (t1 t2 : String) :
    translateTextFull B m text targetCode sourceCode t1 =
      translateTextFull B m text targetCode sourceCode t2 := rfl

end DocumentTranslator
